import Mathlib

/-!
Verification development for the VoltDB repository slice.

Part I embeds `ExecutorContext.hpp` (the execution-context collaborator):
`SubqueryContext`, the subquery-context cache backed by a `std::map`, and
the `setupForPlanFragments` / `setupForExecutors` entry points.

Part II embeds the rule-driven physical-plan optimizer (data model,
rewrite rules and the rewrite driver) whose behavioural contract is
exercised by `TestInlineRules.java`.
-/

namespace VoltDB

/-! ## Part I: ExecutorContext (from `ExecutorContext.hpp`) -/

/-- `NValue` as far as this slice observes it: an opaque runtime value
(the boolean result of an `IN`/`EXISTS` subquery, or a parameter value).
Modelled as `Int`. -/
abbrev NValue := Int

/-- `SubqueryContext` from `ExecutorContext.hpp`: the statement id, the
result (TRUE/FALSE) of the previous `IN`/`EXISTS` subquery invocation, and
the parameter values that were used to obtain the last result. -/
structure SubqueryContext where
  stmtId : Int
  lastResult : NValue
  lastParams : List NValue
deriving DecidableEq

/-- `std::map<int, SubqueryContext>::find`, observed through the pointer
returned by `getSubqueryContext`: the value stored at the key, if any. -/
def mapFind (k : Int) : List (Int × SubqueryContext) → Option SubqueryContext
  | [] => none
  | (k', v) :: rest => if k = k' then some v else mapFind k rest

/-- `std::map<int, SubqueryContext>::insert(std::make_pair(k, v))`:
inserts the pair only when no entry with key `k` exists; an existing
entry is left untouched and the argument is discarded. -/
def mapInsert (k : Int) (v : SubqueryContext) :
    List (Int × SubqueryContext) → List (Int × SubqueryContext)
  | [] => [(k, v)]
  | (k', v') :: rest =>
      if k = k' then (k', v') :: rest else (k', v') :: mapInsert k v rest

/-- The state of an `ExecutorContext` (fields of the C++ class that the
member functions below read or write). Pointer-typed fields
(`m_undoQuantum`, `m_executorsMap`) are opaque handles modelled as `Int`. -/
structure ExecutorContext where
  undoQuantum : Int
  spHandle : Int
  lastCommittedSpHandle : Int
  uniqueId : Int
  currentTxnTimestampField : Int
  epoch : Int
  executorsMap : Int
  subqueryContextMap : List (Int × SubqueryContext)
deriving DecidableEq

/-- Arithmetic right shift by 23 of an `int64_t` value, `x >> 23`
(floor division by `2 ^ 23` on the signed value). -/
def sar23 (x : Int) : Int := Int.fdiv x (2 ^ 23)

/-- `ExecutorContext::setupForPlanFragments(undoQuantum, spHandle,
lastCommittedSpHandle, uniqueId)`: the assignments in source order; note
`m_currentTxnTimestamp` is computed from `m_uniqueId` *before*
`m_uniqueId` is overwritten with the `uniqueId` argument. -/
def setupForPlanFragments (ctx : ExecutorContext)
    (undoQuantum spHandle lastCommittedSpHandle uniqueId : Int) :
    ExecutorContext :=
  { ctx with
    undoQuantum := undoQuantum
    spHandle := spHandle
    lastCommittedSpHandle := lastCommittedSpHandle
    currentTxnTimestampField := sar23 ctx.uniqueId + ctx.epoch
    uniqueId := uniqueId }

/-- `ExecutorContext::setupForExecutors(executorsMap)`: installs the
executors map and clears the subquery-context map. -/
def setupForExecutors (ctx : ExecutorContext) (executorsMap : Int) :
    ExecutorContext :=
  { ctx with
    executorsMap := executorsMap
    subqueryContextMap := [] }

/-- `ExecutorContext::currentTxnTimestamp()`: returns
`m_currentTxnTimestamp`. -/
def currentTxnTimestamp (ctx : ExecutorContext) : Int :=
  ctx.currentTxnTimestampField

/-- `ExecutorContext::getSubqueryContext(stmtId)`: a pointer to the stored
context, or `NULL` (here `none`) when the map has no entry for `stmtId`. -/
def getSubqueryContext (ctx : ExecutorContext) (stmtId : Int) :
    Option SubqueryContext :=
  mapFind stmtId ctx.subqueryContextMap

/-- `ExecutorContext::setSubqueryContext(stmtId, context)`:
`m_subqueryContextMap.insert(std::make_pair(stmtId, context))`. -/
def setSubqueryContext (ctx : ExecutorContext) (stmtId : Int)
    (context : SubqueryContext) : ExecutorContext :=
  { ctx with subqueryContextMap := mapInsert stmtId context ctx.subqueryContextMap }

/-- A sequence of `setSubqueryContext` calls applied in order. -/
def applySets (ctx : ExecutorContext) :
    List (Int × SubqueryContext) → ExecutorContext
  | [] => ctx
  | (s, c) :: rest => applySets (setSubqueryContext ctx s c) rest

lemma mapFind_mapInsert (s k : Int) (v : SubqueryContext)
    (m : List (Int × SubqueryContext)) :
    mapFind s (mapInsert k v m) =
      if s = k then some ((mapFind k m).getD v) else mapFind s m := by
  induction m with
  | nil =>
      by_cases h : s = k <;> simp [mapInsert, mapFind, h]
  | cons hd tl ih =>
      obtain ⟨k', v'⟩ := hd
      by_cases hk : k = k'
      · subst hk
        by_cases hs : s = k <;> simp [mapInsert, mapFind, hs]
      · by_cases hs : s = k'
        · subst hs
          have hns : ¬ s = k := fun h => hk h.symm
          simp [mapInsert, mapFind, hk, hns]
        · simp [mapInsert, mapFind, hk, hs, ih]

lemma getSubqueryContext_applySets (ops : List (Int × SubqueryContext)) :
    ∀ (ctx : ExecutorContext) (s : Int),
      getSubqueryContext (applySets ctx ops) s =
        match getSubqueryContext ctx s with
        | some c => some c
        | none => (ops.find? fun p => p.1 == s).map Prod.snd := by
  induction ops with
  | nil =>
      intro ctx s
      cases h : getSubqueryContext ctx s <;> simp [applySets, h]
  | cons hd tl ih =>
      intro ctx s
      obtain ⟨k, c⟩ := hd
      have hset : getSubqueryContext (setSubqueryContext ctx k c) s =
          if s = k then some ((mapFind k ctx.subqueryContextMap).getD c)
          else getSubqueryContext ctx s := by
        simp [getSubqueryContext, setSubqueryContext, mapFind_mapInsert]
      rw [applySets, ih, hset]
      by_cases hs : s = k
      · subst hs
        cases h : mapFind s ctx.subqueryContextMap with
        | none => simp [getSubqueryContext, h, List.find?]
        | some c0 => simp [getSubqueryContext, h, List.find?]
      · have hk : ¬ k = s := fun h => hs h.symm
        have hbeq : (k == s) = false := by simp [hk]
        cases h : mapFind s ctx.subqueryContextMap with
        | none => simp [getSubqueryContext, h, hs, List.find?, hbeq]
        | some c0 => simp [getSubqueryContext, h, hs, List.find?, hbeq]

lemma mapInsert_of_found (k : Int) (v v0 : SubqueryContext)
    (m : List (Int × SubqueryContext)) (h : mapFind k m = some v0) :
    mapInsert k v m = m := by
  induction m with
  | nil => simp [mapFind] at h
  | cons hd tl ih =>
      obtain ⟨k', v'⟩ := hd
      by_cases hk : k = k'
      · simp [mapInsert, hk]
      · simp [mapFind, hk] at h
        simp [mapInsert, hk, ih h]

/-- C7: for every statement id `s`, `getSubqueryContext s` on a context
built by `setupForExecutors` followed by any sequence of
`setSubqueryContext` calls returns the context stored for `s` (the first
one stored, since `std::map::insert` never overwrites) if one has been
stored, and `NULL` (`none`) if no context has been stored for `s`. -/
theorem getSubqueryContext_spec (ctx : ExecutorContext) (m : Int)
    (ops : List (Int × SubqueryContext)) (s : Int) :
    getSubqueryContext (applySets (setupForExecutors ctx m) ops) s =
      (ops.find? fun p => p.1 == s).map Prod.snd := by
  rw [getSubqueryContext_applySets]
  simp [getSubqueryContext, setupForExecutors, mapFind]

/-- C8: after `setupForPlanFragments(undoQuantum, spHandle,
lastCommittedSpHandle, uniqueId)`, `currentTxnTimestamp()` equals
`(u_prev >> 23) + m_epoch` where `u_prev` is the `m_uniqueId` held before
the call; the `uniqueId` argument just supplied does not enter that value,
it only determines the timestamp computed by the next call. -/
theorem setupForPlanFragments_timestamp (ctx : ExecutorContext)
    (uq sp lc uid uq' sp' lc' uid' : Int) :
    currentTxnTimestamp (setupForPlanFragments ctx uq sp lc uid) =
        sar23 ctx.uniqueId + ctx.epoch ∧
      currentTxnTimestamp
          (setupForPlanFragments (setupForPlanFragments ctx uq sp lc uid)
            uq' sp' lc' uid') =
        sar23 uid + ctx.epoch := by
  constructor <;> rfl

/-- C9: when a `SubqueryContext` is already stored for statement id `s`,
`setSubqueryContext(s, c)` leaves the whole context unchanged
(`std::map::insert` does not overwrite an existing key) and discards `c`. -/
theorem setSubqueryContext_no_overwrite (ctx : ExecutorContext) (s : Int)
    (c c0 : SubqueryContext) (h : getSubqueryContext ctx s = some c0) :
    setSubqueryContext ctx s c = ctx := by
  unfold setSubqueryContext
  rw [mapInsert_of_found s c c0 ctx.subqueryContextMap h]

/-- Witness for C9 at a concrete context that already stores an entry for
statement id 1. -/
theorem setSubqueryContext_no_overwrite_witness :
    setSubqueryContext
        { undoQuantum := 0, spHandle := 0, lastCommittedSpHandle := 0
          uniqueId := 0, currentTxnTimestampField := 0, epoch := 0
          executorsMap := 0
          subqueryContextMap := [(1, ⟨1, 1, [7]⟩)] }
        1 ⟨1, 0, [9]⟩ =
      { undoQuantum := 0, spHandle := 0, lastCommittedSpHandle := 0
        uniqueId := 0, currentTxnTimestampField := 0, epoch := 0
        executorsMap := 0
        subqueryContextMap := [(1, ⟨1, 1, [7]⟩)] } :=
  setSubqueryContext_no_overwrite _ 1 ⟨1, 0, [9]⟩ ⟨1, 1, [7]⟩ (by rfl)

/-- C10: `setupForExecutors(m)` installs `m` as the executors map and
empties the subquery-context cache, so immediately afterwards
`getSubqueryContext(s)` returns `NULL` for every statement id `s`,
whatever was stored before. -/
theorem setupForExecutors_clears (ctx : ExecutorContext) (m s : Int) :
    (setupForExecutors ctx m).executorsMap = m ∧
      getSubqueryContext (setupForExecutors ctx m) s = none := by
  exact ⟨rfl, rfl⟩

/-! ## Part II: the rule-driven plan optimizer

The optimizer's rule set and rewrite driver are not part of the excerpted
sources (only their behavioural tests, `TestInlineRules.java`, are), so the
definitions below are modelled from the specification, sections 3, 4.2 and
4.3, staying consistent with the plans the tests expect. -/

/-- Modelled from the spec: the declared column types appearing in this
slice (the optimizer proper is missing from the sources). Numeric types
are ordered by width for cast insertion. -/
inductive Ty where
  | tinyint
  | smallint
  | integer
  | bigint
  | float
  | decimal
  | varchar
  | timestamp
deriving DecidableEq, Repr

/-- Width order of the numeric types; `0` marks a non-numeric type. -/
def Ty.width : Ty → Nat
  | .tinyint => 1
  | .smallint => 2
  | .integer => 3
  | .bigint => 4
  | .float => 5
  | .decimal => 6
  | .varchar => 0
  | .timestamp => 0

/-- Whether a type takes part in numeric cast insertion. -/
def Ty.isNumeric : Ty → Bool
  | .tinyint => true
  | .smallint => true
  | .integer => true
  | .bigint => true
  | .float => true
  | .decimal => true
  | .varchar => false
  | .timestamp => false

/-- Sort direction. -/
inductive Dirn where
  | asc
  | desc
deriving DecidableEq, Repr

/-- Modelled from the spec: the expression model of the missing optimizer —
input references, literals, operator calls and casts. Calls are binary
(the operators the modelled rules inspect are all binary; variadic
`AND`/`OR` chains are nested binaries). -/
inductive Expr where
  | inputRef (i : Nat)
  | lit (v : Int) (ty : Ty)
  | call (op : String) (a b : Expr)
  | cast (target : Ty) (arg : Expr)
deriving DecidableEq, Repr

/-- Comparison operators: a `Cast` is inserted when the declared types of
their two operands differ. -/
def isCmp (op : String) : Bool :=
  op = "=" || op = "<>" || op = "<" || op = ">" || op = "<=" || op = ">="

/-- Declared type of an expression against a child schema (a `call`'s type
is not a declared column type, so it yields `none`). -/
def typeOfE (sch : List (Option Ty)) : Expr → Option Ty
  | .inputRef i => sch.getD i none
  | .lit _ ty => some ty
  | .call _ _ _ => none
  | .cast target _ => some target

/-- Modelled from the spec: the operand pair of a comparison after cast
insertion — when the declared types differ and both are numeric, the
narrower side is cast up to the wider type; the wider side is left
uncast. -/
def castSides (sch : List (Option Ty)) (a b : Expr) : Expr × Expr :=
  match typeOfE sch a, typeOfE sch b with
  | some ta, some tb =>
      if ta.isNumeric ∧ tb.isNumeric ∧ ta.width < tb.width then (.cast tb a, b)
      else if ta.isNumeric ∧ tb.isNumeric ∧ tb.width < ta.width then (a, .cast ta b)
      else (a, b)
  | _, _ => (a, b)

/-- Modelled from the spec: cast insertion of the missing optimizer — each
comparison in a condition has its operands fixed up by `castSides`. -/
def insertCasts (sch : List (Option Ty)) : Expr → Expr
  | .call op a b =>
      if isCmp op then .call op (castSides sch a b).1 (castSides sch a b).2
      else .call op (insertCasts sch a) (insertCasts sch b)
  | e => e

/-- Aggregate strategy. -/
inductive AggKind where
  | serial
  | hash
deriving DecidableEq, Repr

/-- One aggregate call: function, optional argument (`COUNT(*)` has
none), and the argument-level `distinct` flag. -/
structure AggCall where
  fn : String
  arg : Option Expr
  distinct : Bool
deriving DecidableEq, Repr

/-- An aggregate descriptor: strategy, group keys, calls, optional
`HAVING` condition. It is either a standalone plan node or an attribute
fused onto a `Scan`. -/
structure AggDesc where
  kind : AggKind
  groupKeys : List Nat
  calls : List AggCall
  having : Option Expr
deriving DecidableEq, Repr

/-- Join type. -/
inductive JoinType where
  | inner
  | left
  | full
deriving DecidableEq, Repr

/-- Modelled from the spec: the plan-node model of the missing optimizer —
tagged variants Scan, Calc, Sort, Join, Aggregate, each carrying its
expressions and split count. `Calc` carries `limit`/`offset` slots so a
bare limit can be fused into it; an aggregate descriptor fuses onto a
`Scan` (the fused form the tests exhibit). -/
inductive PlanNode where
  | Scan (table : String) (baseTypes : List Ty) (projectList : List Expr)
      (condition : Option Expr) (limit offset : Option Nat)
      (aggregate : Option AggDesc) (split : Nat)
  | Calc (projectList : List Expr) (condition : Option Expr)
      (limit offset : Option Nat) (child : PlanNode) (split : Nat)
  | SortOp (sortKeys : List (Expr × Dirn)) (fetch offset : Option Nat)
      (child : PlanNode) (split : Nat)
  | Join (condition : Expr) (joinType : JoinType) (left right : PlanNode)
      (split : Nat)
  | Aggregate (desc : AggDesc) (child : PlanNode) (split : Nat)
deriving DecidableEq, Repr

/-- Output schema (declared types per output column) of a plan node. -/
def schemaOf : PlanNode → List (Option Ty)
  | .Scan _ baseTypes projectList _ _ _ _ _ =>
      projectList.map (typeOfE (baseTypes.map some))
  | .Calc projectList _ _ _ child _ =>
      projectList.map (typeOfE (schemaOf child))
  | .SortOp _ _ _ child _ => schemaOf child
  | .Join _ _ l r _ => schemaOf l ++ schemaOf r
  | .Aggregate desc child _ =>
      desc.groupKeys.map (fun i => (schemaOf child).getD i none) ++
        desc.calls.map (fun _ => none)

/-- The identity projection over `n` base columns. -/
def identityPL (n : Nat) : List Expr := (List.range n).map .inputRef

/-- Whether a project list is the identity over `n` columns, counting from
position `k`. -/
def isIdentityFrom : List Expr → Nat → Bool
  | [], _ => true
  | .inputRef i :: rest, k => i = k && isIdentityFrom rest (k + 1)
  | _, _ => false

/-- Whether a project list is exactly the identity over `n` columns. -/
def isIdentity (pl : List Expr) (n : Nat) : Bool :=
  pl.length = n && isIdentityFrom pl 0

/-- Combining a producer's existing condition with a newly fused one:
logical AND when both are present. -/
def combineCond : Option Expr → Option Expr → Option Expr
  | none, c => c
  | some a, none => some a
  | some a, some b => some (.call "AND" a b)

/-- A scan a `Calc` may fuse into: no restricting project list yet, no
limit/offset, no fused aggregate. -/
def fusableScan : PlanNode → Bool
  | .Scan _ baseTypes projectList _ limit offset aggregate _ =>
      limit.isNone && offset.isNone && aggregate.isNone &&
        isIdentity projectList baseTypes.length
  | _ => false

/-- Modelled from the spec: project/filter inlining into `Scan` — the
`Calc`'s project list becomes the scan's project list and its condition is
ANDed onto the scan's condition. -/
def fuseCalcScan (pl : List Expr) (cond : Option Expr)
    (lim off : Option Nat) : PlanNode → PlanNode
  | .Scan t baseTypes _ scond _ _ _ ssplit =>
      .Scan t baseTypes pl (combineCond scond cond) lim off none ssplit
  | p => p

/-- The `Calc` rule: fuse into a fusable child scan, keep the node
otherwise. -/
def calcRule (pl : List Expr) (cond : Option Expr) (lim off : Option Nat)
    (child : PlanNode) (split : Nat) : PlanNode :=
  if fusableScan child then fuseCalcScan pl cond lim off child
  else .Calc pl cond lim off child split

/-- A producer (`Scan` or `Calc`) that is still unlimited, into which a
bare limit/offset can be fused. -/
def limitFreeProducer : PlanNode → Bool
  | .Scan _ _ _ _ limit offset _ _ => limit.isNone && offset.isNone
  | .Calc _ _ limit offset _ _ => limit.isNone && offset.isNone
  | _ => false

/-- Writing a fetch/offset pair into a producer's limit/offset slots. -/
def setLimits (f o : Option Nat) : PlanNode → PlanNode
  | .Scan t baseTypes pl c _ _ aggregate s => .Scan t baseTypes pl c f o aggregate s
  | .Calc pl c _ _ child s => .Calc pl c f o child s
  | p => p

/-- Modelled from the spec: limit/offset inlining — a `Sort` with no
`sortKeys` is a bare limit/offset and is fused into an unlimited child
producer; a `Sort` with `sortKeys` keeps its own fetch/offset and never
touches the child. -/
def sortRule (keys : List (Expr × Dirn)) (f o : Option Nat)
    (child : PlanNode) (split : Nat) : PlanNode :=
  if keys.isEmpty then
    if limitFreeProducer child then setLimits f o child
    else .SortOp keys f o child split
  else .SortOp keys f o child split

/-- Column positions the child is known (from upstream planning) to
deliver its rows ordered on: the input-reference sort keys of a `Sort`. -/
def sortKeyCols : List (Expr × Dirn) → List Nat
  | [] => []
  | (.inputRef i, _) :: rest => i :: sortKeyCols rest
  | _ :: rest => sortKeyCols rest

/-- The ordering known for a node's output. -/
def orderingOf : PlanNode → List Nat
  | .SortOp keys _ _ _ _ => sortKeyCols keys
  | _ => []

/-- Modelled from the spec: aggregate strategy selection — `serial` for a
global aggregate (empty `groupKeys`) or when the child is known ordered on
the group keys, `hash` otherwise. -/
def selectKind (groupKeys : List Nat) (childOrd : List Nat) : AggKind :=
  if groupKeys.isEmpty then .serial
  else if groupKeys.all (fun g => childOrd.contains g) then .serial
  else .hash

/-- A scan an `Aggregate` may fuse onto: no limit/offset and no aggregate
already fused (no intervening limit between the aggregate and its scan). -/
def aggFusableScan : PlanNode → Bool
  | .Scan _ _ _ _ limit offset aggregate _ =>
      limit.isNone && offset.isNone && aggregate.isNone
  | _ => false

/-- Attaching an aggregate descriptor onto a scan. -/
def fuseAgg (d : AggDesc) : PlanNode → PlanNode
  | .Scan t baseTypes pl c lim off _ s => .Scan t baseTypes pl c lim off (some d) s
  | p => p

/-- Modelled from the spec: aggregate fusion and strategy selection — the
strategy is re-derived from the group keys and the child's known ordering;
the descriptor fuses onto a direct child scan, otherwise the aggregate
stays a standalone node. -/
def aggregateRule (d : AggDesc) (child : PlanNode) (split : Nat) : PlanNode :=
  if aggFusableScan child then
    fuseAgg { d with kind := selectKind d.groupKeys (orderingOf child) } child
  else
    .Aggregate { d with kind := selectKind d.groupKeys (orderingOf child) }
      child split

/-- The `Join` rule: cast insertion on the join condition against the
concatenated child schemas (join condition renumbering's type fixup). -/
def joinRule (cond : Expr) (jt : JoinType) (l r : PlanNode) (split : Nat) :
    PlanNode :=
  .Join (insertCasts (schemaOf l ++ schemaOf r) cond) jt l r split

/-- Modelled from the spec: the rewrite driver — children are rewritten
first and every rule is applied bottom-up until no rule matches; with this
rule set the fixpoint is reached in one bottom-up pass (idempotence is
proved below). -/
def optimize : PlanNode → PlanNode
  | .Scan t baseTypes pl c lim off aggregate s =>
      .Scan t baseTypes pl c lim off aggregate s
  | .Calc pl c lim off child s => calcRule pl c lim off (optimize child) s
  | .SortOp keys f o child s => sortRule keys f o (optimize child) s
  | .Join cond jt l r s => joinRule cond jt (optimize l) (optimize r) s
  | .Aggregate d child s => aggregateRule d (optimize child) s

lemma castSides_eq (sch : List (Option Ty)) (a b : Expr) (ta tb : Ty)
    (hta : typeOfE sch a = some ta) (htb : typeOfE sch b = some tb) :
    castSides sch a b =
      if ta.isNumeric ∧ tb.isNumeric ∧ ta.width < tb.width then (.cast tb a, b)
      else if ta.isNumeric ∧ tb.isNumeric ∧ tb.width < ta.width then
        (a, .cast ta b)
      else (a, b) := by
  unfold castSides
  rw [hta, htb]

lemma castSides_same_ty (sch : List (Option Ty)) (a b : Expr) (tc : Ty)
    (hta : typeOfE sch a = some tc) (htb : typeOfE sch b = some tc) :
    castSides sch a b = (a, b) := by
  have hno : ¬ (tc.isNumeric ∧ tc.isNumeric ∧ tc.width < tc.width) :=
    fun h => lt_irrefl _ h.2.2
  rw [castSides_eq sch a b tc tc hta htb, if_neg hno, if_neg hno]

lemma castSides_idem (sch : List (Option Ty)) (a b : Expr) :
    castSides sch (castSides sch a b).1 (castSides sch a b).2 =
      castSides sch a b := by
  cases hta : typeOfE sch a with
  | none => simp [castSides, hta]
  | some ta =>
      cases htb : typeOfE sch b with
      | none => simp [castSides, hta, htb]
      | some tb =>
          rw [castSides_eq sch a b ta tb hta htb]
          by_cases h1 : ta.isNumeric ∧ tb.isNumeric ∧ ta.width < tb.width
          · rw [if_pos h1]
            show castSides sch (.cast tb a) b = (.cast tb a, b)
            exact castSides_same_ty sch (.cast tb a) b tb rfl htb
          · rw [if_neg h1]
            by_cases h2 : ta.isNumeric ∧ tb.isNumeric ∧ tb.width < ta.width
            · rw [if_pos h2]
              show castSides sch a (.cast ta b) = (a, .cast ta b)
              exact castSides_same_ty sch a (.cast ta b) ta hta rfl
            · rw [if_neg h2]
              show castSides sch a b = (a, b)
              rw [castSides_eq sch a b ta tb hta htb, if_neg h1, if_neg h2]

lemma insertCasts_idem (sch : List (Option Ty)) (e : Expr) :
    insertCasts sch (insertCasts sch e) = insertCasts sch e := by
  induction e with
  | inputRef i => rfl
  | lit v ty => rfl
  | cast t a iha => rfl
  | call op a b iha ihb =>
      by_cases hc : isCmp op
      · simp [insertCasts, hc, castSides_idem]
      · simp [insertCasts, hc, iha, ihb]

lemma calcRule_fixed (pl : List Expr) (c : Option Expr) (lim off : Option Nat)
    (q : PlanNode) (s : Nat) (hq : optimize q = q) :
    optimize (calcRule pl c lim off q s) = calcRule pl c lim off q s := by
  unfold calcRule
  by_cases hf : fusableScan q
  · rw [if_pos hf]
    cases q with
    | Scan t bts spl scond slim soff sagg ssp => simp [fuseCalcScan, optimize]
    | Calc _ _ _ _ _ _ => simp [fusableScan] at hf
    | SortOp _ _ _ _ _ => simp [fusableScan] at hf
    | Join _ _ _ _ _ => simp [fusableScan] at hf
    | Aggregate _ _ _ => simp [fusableScan] at hf
  · rw [if_neg hf]
    simp only [optimize]
    rw [hq]
    unfold calcRule
    rw [if_neg hf]

lemma sortRule_fixed (keys : List (Expr × Dirn)) (f o : Option Nat)
    (q : PlanNode) (s : Nat) (hq : optimize q = q) :
    optimize (sortRule keys f o q s) = sortRule keys f o q s := by
  unfold sortRule
  by_cases hk : keys.isEmpty
  · rw [if_pos hk]
    by_cases hp : limitFreeProducer q
    · rw [if_pos hp]
      cases q with
      | Scan t bts spl scond slim soff sagg ssp => simp [setLimits, optimize]
      | Calc pl c lim off cchild csp =>
          have hq' : calcRule pl c lim off (optimize cchild) csp =
              .Calc pl c lim off cchild csp := hq
          by_cases hfc : fusableScan (optimize cchild)
          · exfalso
            unfold calcRule at hq'
            rw [if_pos hfc] at hq'
            cases hoc : optimize cchild with
            | Scan t bts spl scond slim soff sagg ssp =>
                rw [hoc] at hq'
                simp [fuseCalcScan] at hq'
            | Calc _ _ _ _ _ _ => rw [hoc] at hfc; simp [fusableScan] at hfc
            | SortOp _ _ _ _ _ => rw [hoc] at hfc; simp [fusableScan] at hfc
            | Join _ _ _ _ _ => rw [hoc] at hfc; simp [fusableScan] at hfc
            | Aggregate _ _ _ => rw [hoc] at hfc; simp [fusableScan] at hfc
          · unfold calcRule at hq'
            rw [if_neg hfc] at hq'
            have hcc : optimize cchild = cchild := by
              simp only [PlanNode.Calc.injEq, true_and, and_true] at hq'
              exact hq'
            rw [hcc] at hfc
            simp only [setLimits, optimize]
            rw [hcc]
            unfold calcRule
            rw [if_neg hfc]
      | SortOp _ _ _ _ _ => simp [limitFreeProducer] at hp
      | Join _ _ _ _ _ => simp [limitFreeProducer] at hp
      | Aggregate _ _ _ => simp [limitFreeProducer] at hp
    · rw [if_neg hp]
      simp only [optimize]
      rw [hq]
      unfold sortRule
      rw [if_pos hk, if_neg hp]
  · rw [if_neg hk]
    simp only [optimize]
    rw [hq]
    unfold sortRule
    rw [if_neg hk]

lemma aggKind_update_self (d : AggDesc) : { d with kind := d.kind } = d := by
  cases d
  rfl

lemma aggRule_fixed (d : AggDesc) (q : PlanNode) (s : Nat)
    (hq : optimize q = q) :
    optimize (aggregateRule d q s) = aggregateRule d q s := by
  unfold aggregateRule
  by_cases hf : aggFusableScan q
  · rw [if_pos hf]
    cases q with
    | Scan t bts spl scond slim soff sagg ssp => simp [fuseAgg, optimize]
    | Calc _ _ _ _ _ _ => simp [aggFusableScan] at hf
    | SortOp _ _ _ _ _ => simp [aggFusableScan] at hf
    | Join _ _ _ _ _ => simp [aggFusableScan] at hf
    | Aggregate _ _ _ => simp [aggFusableScan] at hf
  · rw [if_neg hf]
    simp only [optimize]
    rw [hq]
    unfold aggregateRule
    rw [if_neg hf]

/-- C6: the full rewrite pass is idempotent — applying the
rewrite-to-fixpoint pass a second time to the tree the pass itself
produced yields that identical tree (no rule matches an already-optimized
tree). -/
theorem optimize_idempotent (p : PlanNode) :
    optimize (optimize p) = optimize p := by
  induction p with
  | Scan t bts pl c lim off agg s => rfl
  | Calc pl c lim off child s ih =>
      simp only [optimize]
      exact calcRule_fixed pl c lim off (optimize child) s ih
  | SortOp keys f o child s ih =>
      simp only [optimize]
      exact sortRule_fixed keys f o (optimize child) s ih
  | Join cond jt l r s ihl ihr =>
      simp only [optimize, joinRule]
      rw [ihl, ihr, insertCasts_idem]
  | Aggregate d child s ih =>
      simp only [optimize]
      exact aggRule_fixed d (optimize child) s ih

/-- Whether a node is a `Sort` node. -/
def isSortNode : PlanNode → Bool
  | .SortOp _ _ _ _ _ => true
  | _ => false

/-- The aggregate descriptor a node carries: the fused attribute of a
scan, or the descriptor of a standalone aggregate node. -/
def aggDescOf : PlanNode → Option AggDesc
  | .Scan _ _ _ _ _ _ aggregate _ => aggregate
  | .Aggregate d _ _ => some d
  | _ => none

/-- The strategy of the aggregate a node carries, if any. -/
def aggKindOf (p : PlanNode) : Option AggKind := (aggDescOf p).map AggDesc.kind

/-- The number of aggregate stages (fused descriptors plus standalone
aggregate nodes) in a plan. -/
def countAggDescs : PlanNode → Nat
  | .Scan _ _ _ _ _ _ aggregate _ => if aggregate.isSome then 1 else 0
  | .Calc _ _ _ _ child _ => countAggDescs child
  | .SortOp _ _ _ child _ => countAggDescs child
  | .Join _ _ l r _ => countAggDescs l + countAggDescs r
  | .Aggregate _ child _ => 1 + countAggDescs child

lemma isSortNode_setLimits (f o : Option Nat) (q : PlanNode)
    (hp : limitFreeProducer q = true) : isSortNode (setLimits f o q) = false := by
  cases q <;> first
    | rfl
    | simp [limitFreeProducer] at hp

lemma aggDescOf_aggregateRule (d : AggDesc) (q : PlanNode) (s : Nat) :
    aggDescOf (aggregateRule d q s) =
      some { d with kind := selectKind d.groupKeys (orderingOf q) } := by
  unfold aggregateRule
  by_cases hf : aggFusableScan q
  · rw [if_pos hf]
    cases q with
    | Scan t bts spl scond slim soff sagg ssp => simp [fuseAgg, aggDescOf]
    | Calc _ _ _ _ _ _ => simp [aggFusableScan] at hf
    | SortOp _ _ _ _ _ => simp [aggFusableScan] at hf
    | Join _ _ _ _ _ => simp [aggFusableScan] at hf
    | Aggregate _ _ _ => simp [aggFusableScan] at hf
  · rw [if_neg hf]
    rfl

lemma selectKind_hash (gks ord : List Nat) (hne : gks.isEmpty = false)
    (hall : (gks.all fun g => ord.contains g) = false) :
    selectKind gks ord = .hash := by
  unfold selectKind
  rw [hne, hall]
  rfl

lemma countAggDescs_setLimits (f o : Option Nat) (q : PlanNode) :
    countAggDescs (setLimits f o q) = countAggDescs q := by
  cases q <;> rfl

lemma countAggDescs_calcRule (pl : List Expr) (c : Option Expr)
    (lim off : Option Nat) (q : PlanNode) (s : Nat) :
    countAggDescs (calcRule pl c lim off q s) = countAggDescs q := by
  unfold calcRule
  by_cases hf : fusableScan q
  · rw [if_pos hf]
    cases q with
    | Scan t bts spl scond slim soff sagg ssp =>
        simp only [fusableScan, Bool.and_eq_true, Option.isNone_iff_eq_none] at hf
        obtain ⟨⟨⟨h1, h2⟩, h3⟩, h4⟩ := hf
        subst h3
        simp [fuseCalcScan, countAggDescs]
    | Calc _ _ _ _ _ _ => simp [fusableScan] at hf
    | SortOp _ _ _ _ _ => simp [fusableScan] at hf
    | Join _ _ _ _ _ => simp [fusableScan] at hf
    | Aggregate _ _ _ => simp [fusableScan] at hf
  · rw [if_neg hf]
    rfl

lemma countAggDescs_aggregateRule (d : AggDesc) (q : PlanNode) (s : Nat) :
    countAggDescs (aggregateRule d q s) = 1 + countAggDescs q := by
  unfold aggregateRule
  by_cases hf : aggFusableScan q
  · rw [if_pos hf]
    cases q with
    | Scan t bts spl scond slim soff sagg ssp =>
        simp only [aggFusableScan, Bool.and_eq_true, Option.isNone_iff_eq_none] at hf
        obtain ⟨⟨h1, h2⟩, h3⟩ := hf
        subst h3
        simp [fuseAgg, countAggDescs]
    | Calc _ _ _ _ _ _ => simp [aggFusableScan] at hf
    | SortOp _ _ _ _ _ => simp [aggFusableScan] at hf
    | Join _ _ _ _ _ => simp [aggFusableScan] at hf
    | Aggregate _ _ _ => simp [aggFusableScan] at hf
  · rw [if_neg hf]
    rfl

lemma countAggDescs_optimize (p : PlanNode) :
    countAggDescs (optimize p) = countAggDescs p := by
  induction p with
  | Scan t bts pl c lim off agg s => rfl
  | Calc pl c lim off child s ih =>
      simp only [optimize]
      rw [countAggDescs_calcRule]
      exact ih
  | SortOp keys f o child s ih =>
      simp only [optimize]
      unfold sortRule
      by_cases hk : keys.isEmpty = true
      · rw [if_pos hk]
        by_cases hp : limitFreeProducer (optimize child) = true
        · rw [if_pos hp, countAggDescs_setLimits]
          exact ih
        · rw [if_neg hp]
          exact ih
      · rw [if_neg hk]
        exact ih
  | Join cond jt l r s ihl ihr =>
      simp only [optimize, joinRule]
      simp [countAggDescs, ihl, ihr]
  | Aggregate d child s ih =>
      simp only [optimize]
      rw [countAggDescs_aggregateRule, ih]
      rfl

/-- Declared column types of test table `R1` (`i INTEGER, si SMALLINT,
ti TINYINT, bi BIGINT, f FLOAT, v VARCHAR`). -/
def r1Types : List Ty :=
  [.integer, .smallint, .tinyint, .bigint, .float, .varchar]

/-- An unrestricted sequential scan of `R1`. -/
def scanR1 : PlanNode := .Scan "R1" r1Types (identityPL 6) none none none none 1

/-- C1: a `Sort` with non-empty `sortKeys` keeps its own fetch/offset and
the optimizer never inlines them into a producer beneath it (the rewritten
child does not depend on them at all); a `Sort` with no `sortKeys` has its
fetch/offset fused into the nearest producing Scan/Calc and no separate
Sort node remains. -/
theorem sort_limit_inlining (keys : List (Expr × Dirn)) (f o : Option Nat)
    (child : PlanNode) (s : Nat) :
    (keys ≠ [] →
      optimize (.SortOp keys f o child s) =
        .SortOp keys f o (optimize child) s) ∧
    (keys = [] → limitFreeProducer (optimize child) = true →
      optimize (.SortOp keys f o child s) = setLimits f o (optimize child) ∧
        isSortNode (optimize (.SortOp keys f o child s)) = false) := by
  constructor
  · intro hne
    have hk : keys.isEmpty = false := by
      cases keys with
      | nil => exact absurd rfl hne
      | cons a l => rfl
    simp only [optimize]
    unfold sortRule
    rw [if_neg (show ¬ keys.isEmpty = true by simp [hk])]
  · intro hnil hp
    subst hnil
    have heq : optimize (.SortOp ([] : List (Expr × Dirn)) f o child s) =
        setLimits f o (optimize child) := by
      simp only [optimize]
      unfold sortRule
      rw [if_pos (by rfl), if_pos hp]
    refine ⟨heq, ?_⟩
    rw [heq]
    exact isSortNode_setLimits f o (optimize child) hp

/-- Witness for C1: the `order by bi limit 5 offset 1` plan keeps its Sort
above an unlimited scan, while the bare `limit 5` plan fuses the limit
into the scan and leaves no Sort node. -/
theorem sort_limit_inlining_witness :
    (optimize (.SortOp [(.inputRef 1, .asc)] (some 5) (some 1)
        (.Calc [.inputRef 0, .inputRef 3] none none none scanR1 1) 1) =
      .SortOp [(.inputRef 1, .asc)] (some 5) (some 1)
        (optimize (.Calc [.inputRef 0, .inputRef 3] none none none scanR1 1)) 1) ∧
    (optimize (.SortOp [] (some 5) none
          (.Calc [.inputRef 0] none none none scanR1 1) 1) =
        setLimits (some 5) none
          (optimize (.Calc [.inputRef 0] none none none scanR1 1)) ∧
      isSortNode (optimize (.SortOp [] (some 5) none
          (.Calc [.inputRef 0] none none none scanR1 1) 1)) = false) :=
  ⟨(sort_limit_inlining [(.inputRef 1, .asc)] (some 5) (some 1)
      (.Calc [.inputRef 0, .inputRef 3] none none none scanR1 1) 1).1
      (List.cons_ne_nil _ _),
   (sort_limit_inlining [] (some 5) none
      (.Calc [.inputRef 0] none none none scanR1 1) 1).2 rfl (by rfl)⟩

/-- C2: the aggregate the optimizer fuses or emits selects `Serial` when
`groupKeys` is empty (a global aggregate), and `Hash` when `groupKeys` is
non-empty and the child's rows are not known ordered on the group keys. -/
theorem aggregate_strategy (d : AggDesc) (child : PlanNode) (s : Nat) :
    (d.groupKeys = [] →
      aggKindOf (optimize (.Aggregate d child s)) = some .serial) ∧
    (d.groupKeys ≠ [] →
      (d.groupKeys.all fun g => (orderingOf (optimize child)).contains g) = false →
      aggKindOf (optimize (.Aggregate d child s)) = some .hash) := by
  constructor
  · intro hg
    simp only [optimize]
    unfold aggKindOf
    rw [aggDescOf_aggregateRule]
    simp [selectKind, hg]
  · intro hg hall
    have hne : d.groupKeys.isEmpty = false := by
      cases hgk : d.groupKeys with
      | nil => exact absurd hgk hg
      | cons a l => rfl
    simp only [optimize]
    unfold aggKindOf
    rw [aggDescOf_aggregateRule, selectKind_hash _ _ hne hall]
    rfl

/-- Witness for C2: `avg(ti) from R1` selects Serial; `avg(ti) from R1
group by i` (unordered scan input) selects Hash. -/
theorem aggregate_strategy_witness :
    aggKindOf (optimize (.Aggregate
        ⟨.serial, [], [⟨"AVG", some (.inputRef 0), false⟩], none⟩
        (.Calc [.inputRef 2] none none none scanR1 1) 1)) = some .serial ∧
    aggKindOf (optimize (.Aggregate
        ⟨.serial, [0], [⟨"AVG", some (.inputRef 1), false⟩], none⟩
        (.Calc [.inputRef 0, .inputRef 2] none none none scanR1 1) 1)) =
      some .hash :=
  ⟨(aggregate_strategy ⟨.serial, [], [⟨"AVG", some (.inputRef 0), false⟩], none⟩
      (.Calc [.inputRef 2] none none none scanR1 1) 1).1 rfl,
   (aggregate_strategy ⟨.serial, [0], [⟨"AVG", some (.inputRef 1), false⟩], none⟩
      (.Calc [.inputRef 0, .inputRef 2] none none none scanR1 1) 1).2
      (List.cons_ne_nil _ _) (by rfl)⟩

/-- C3: row-level DISTINCT (an aggregate grouping on exactly the selected
columns with no calls) optimizes to a `Hash` aggregate with those group
keys and an empty calls list, while DISTINCT on one aggregate call's
argument stays encoded as `distinct = true` on that single call, and no
extra aggregate/dedup stage is ever introduced. -/
theorem distinct_encoding (k0 k1 : AggKind) (cols gks : List Nat)
    (child child2 : PlanNode) (s s2 : Nat) (fn : String) (argE : Expr)
    (hv : Option Expr) :
    (cols ≠ [] →
      (cols.all fun g => (orderingOf (optimize child)).contains g) = false →
      aggDescOf (optimize (.Aggregate ⟨k0, cols, [], none⟩ child s)) =
        some ⟨.hash, cols, [], none⟩) ∧
    (aggDescOf (optimize (.Aggregate ⟨k1, gks, [⟨fn, some argE, true⟩], hv⟩
          child2 s2)) =
        some ⟨selectKind gks (orderingOf (optimize child2)), gks,
          [⟨fn, some argE, true⟩], hv⟩ ∧
      countAggDescs (optimize (.Aggregate ⟨k1, gks, [⟨fn, some argE, true⟩], hv⟩
          child2 s2)) = 1 + countAggDescs child2) := by
  refine ⟨?_, ?_, ?_⟩
  · intro hne hall
    have hisne : (cols : List Nat).isEmpty = false := by
      cases hgk : cols with
      | nil => exact absurd hgk hne
      | cons a l => rfl
    simp only [optimize]
    rw [aggDescOf_aggregateRule, selectKind_hash _ _ hisne hall]
  · simp only [optimize]
    rw [aggDescOf_aggregateRule]
  · simp only [optimize]
    rw [countAggDescs_aggregateRule, countAggDescs_optimize]

/-- Witness for C3: `select distinct ti, i from R1` yields the fused Hash
aggregate grouping on both columns with zero calls; `max(distinct ti)
group by i` keeps the single call with `distinct = true`. -/
theorem distinct_encoding_witness :
    aggDescOf (optimize (.Aggregate ⟨.serial, [0, 1], [], none⟩
        (.Calc [.inputRef 2, .inputRef 0] none none none scanR1 1) 1)) =
      some ⟨.hash, [0, 1], [], none⟩ ∧
    aggDescOf (optimize (.Aggregate
        ⟨.hash, [0], [⟨"MAX", some (.inputRef 1), true⟩], none⟩
        (.Calc [.inputRef 0, .inputRef 2] none none none scanR1 1) 1)) =
      some ⟨selectKind [0] (orderingOf (optimize
          (.Calc [.inputRef 0, .inputRef 2] none none none scanR1 1))), [0],
        [⟨"MAX", some (.inputRef 1), true⟩], none⟩ :=
  ⟨(distinct_encoding .serial .hash [0, 1] [0]
      (.Calc [.inputRef 2, .inputRef 0] none none none scanR1 1)
      (.Calc [.inputRef 0, .inputRef 2] none none none scanR1 1) 1 1
      "MAX" (.inputRef 1) none).1 (List.cons_ne_nil _ _) (by rfl),
   ((distinct_encoding .serial .hash [0, 1] [0]
      (.Calc [.inputRef 2, .inputRef 0] none none none scanR1 1)
      (.Calc [.inputRef 0, .inputRef 2] none none none scanR1 1) 1 1
      "MAX" (.inputRef 1) none).2).1⟩

/-- C4: a `Calc` over an unrestricted `Scan` fuses into it — the `Calc`'s
project list becomes the scan's project list and its condition becomes the
scan's condition, ANDed onto any condition the scan already carries. -/
theorem calc_scan_fusion (pl : List Expr) (cond : Option Expr)
    (lim off : Option Nat) (t : String) (bts : List Ty) (spl : List Expr)
    (scond : Option Expr) (s ssp : Nat)
    (h : isIdentity spl bts.length = true) :
    optimize (.Calc pl cond lim off
        (.Scan t bts spl scond none none none ssp) s) =
      .Scan t bts pl (combineCond scond cond) lim off none ssp := by
  have hf : fusableScan (.Scan t bts spl scond none none none ssp) = true := by
    simp [fusableScan, h]
  simp only [optimize]
  unfold calcRule
  rw [if_pos hf]
  rfl

/-- Witness for C4: `select i from R1 where i = 5` becomes a single scan
with condition `col0 = 5` and project list `[col0]`; a scan that already
carries a condition gets the AND of both conditions. -/
theorem calc_scan_fusion_witness :
    optimize (.Calc [.inputRef 0]
        (some (.call "=" (.inputRef 0) (.lit 5 .integer))) none none
        scanR1 1) =
      .Scan "R1" r1Types [.inputRef 0]
        (some (.call "=" (.inputRef 0) (.lit 5 .integer))) none none none 1 ∧
    optimize (.Calc [.inputRef 0]
        (some (.call "=" (.inputRef 0) (.lit 3 .integer))) none none
        (.Scan "R1" r1Types (identityPL 6)
          (some (.call "=" (.inputRef 5) (.lit 7 .varchar))) none none none 1)
        1) =
      .Scan "R1" r1Types [.inputRef 0]
        (some (.call "AND" (.call "=" (.inputRef 5) (.lit 7 .varchar))
          (.call "=" (.inputRef 0) (.lit 3 .integer)))) none none none 1 :=
  ⟨calc_scan_fusion [.inputRef 0]
      (some (.call "=" (.inputRef 0) (.lit 5 .integer))) none none
      "R1" r1Types (identityPL 6) none 1 1 (by rfl),
   calc_scan_fusion [.inputRef 0]
      (some (.call "=" (.inputRef 0) (.lit 3 .integer))) none none
      "R1" r1Types (identityPL 6)
      (some (.call "=" (.inputRef 5) (.lit 7 .varchar))) 1 1 (by rfl)⟩

/-- C5: when the two operands of a comparison carry different declared
numeric types, cast insertion puts a `Cast` on the narrower side only,
casting it up to the wider type, and leaves the wider side uncast; the
optimizer applies exactly this fixup to every join condition. -/
theorem cast_insertion (sch : List (Option Ty)) (op : String) (a b : Expr)
    (ta tb : Ty) (hc : isCmp op = true) (hta : typeOfE sch a = some ta)
    (htb : typeOfE sch b = some tb) (hna : ta.isNumeric = true)
    (hnb : tb.isNumeric = true) :
    (ta.width < tb.width →
      insertCasts sch (.call op a b) = .call op (.cast tb a) b) ∧
    (tb.width < ta.width →
      insertCasts sch (.call op a b) = .call op a (.cast ta b)) ∧
    (∀ (jt : JoinType) (l r : PlanNode) (cnd : Expr) (s : Nat),
      optimize (.Join cnd jt l r s) =
        .Join (insertCasts (schemaOf (optimize l) ++ schemaOf (optimize r)) cnd)
          jt (optimize l) (optimize r) s) := by
  refine ⟨?_, ?_, ?_⟩
  · intro hw
    simp only [insertCasts]
    rw [if_pos hc, castSides_eq sch a b ta tb hta htb, if_pos ⟨hna, hnb, hw⟩]
  · intro hw
    have hnlt : ¬ (ta.isNumeric ∧ tb.isNumeric ∧ ta.width < tb.width) :=
      fun hcon => lt_asymm hcon.2.2 hw
    simp only [insertCasts]
    rw [if_pos hc, castSides_eq sch a b ta tb hta htb, if_neg hnlt,
      if_pos ⟨hna, hnb, hw⟩]
  · intro jt l r cnd s
    rfl

/-- Witness for C5: `si = 5` over `R1` gets `CAST(si):INTEGER` on the
narrower SMALLINT side while the INTEGER literal stays uncast. -/
theorem cast_insertion_witness :
    insertCasts (r1Types.map some)
        (.call "=" (.inputRef 1) (.lit 5 .integer)) =
      .call "=" (.cast .integer (.inputRef 1)) (.lit 5 .integer) :=
  (cast_insertion (r1Types.map some) "=" (.inputRef 1) (.lit 5 .integer)
      .smallint .integer rfl rfl rfl rfl rfl).1 (by decide)

end VoltDB
